import Mathlib

/-!
Verification of the Vecture redaction engine (`src/vecture/core.py`).

Texts are modelled as `List Char` (Python `str` is a sequence of Unicode code
points).  Byte strings are `List Nat`.  The Python `hashlib.sha256` digest is
implemented concretely below; `zlib`, `base64` and `json` (external library
collaborators of the codec) are abstracted as parameters with their documented
lossless contracts.
-/

namespace Vecture

/-- Python slice `s[a:b]` for non-negative bounds: clamps, empty when `a ≥ b`. -/
def pySlice (s : List Char) (a b : Nat) : List Char := (s.take b).drop a

/-- Clamped index for Python slicing with a possibly negative `Int` index. -/
def pyBound (n : Nat) (i : Int) : Nat :=
  if i < 0 then ((n : Int) + i).toNat else min i.toNat n

/-- Python `s[:i]` for an arbitrary integer `i`. -/
def pySliceTo (s : List Char) (i : Int) : List Char := s.take (pyBound s.length i)

/-- Python `s[i:]` for an arbitrary integer `i`. -/
def pySliceFrom (s : List Char) (i : Int) : List Char := s.drop (pyBound s.length i)

/-- UTF-8 encoding of one code point (Python `str.encode('utf-8')`, per char). -/
def utf8Char (c : Char) : List Nat :=
  let n := c.toNat
  if n < 0x80 then [n]
  else if n < 0x800 then [0xC0 + n / 64, 0x80 + n % 64]
  else if n < 0x10000 then [0xE0 + n / 4096, 0x80 + n / 64 % 64, 0x80 + n % 64]
  else [0xF0 + n / 262144, 0x80 + n / 4096 % 64, 0x80 + n / 64 % 64, 0x80 + n % 64]

/-- UTF-8 encoding of a text (Python `text.encode('utf-8')`). -/
def utf8Encode (s : List Char) : List Nat := s.flatMap utf8Char

/-! ### SHA-256 (`hashlib.sha256`), on 32-bit words carried as `Nat` mod `2^32` -/

def w32 (x : Nat) : Nat := x % 4294967296

def rotr32 (n x : Nat) : Nat := w32 ((x >>> n) ||| (x <<< (32 - n)))

def shaK : List Nat :=
  [
   1116352408, 1899447441, 3049323471, 3921009573, 961987163, 1508970993,
   2453635748, 2870763221, 3624381080, 310598401, 607225278, 1426881987,
   1925078388, 2162078206, 2614888103, 3248222580, 3835390401, 4022224774,
   264347078, 604807628, 770255983, 1249150122, 1555081692, 1996064986,
   2554220882, 2821834349, 2952996808, 3210313671, 3336571891, 3584528711,
   113926993, 338241895, 666307205, 773529912, 1294757372, 1396182291,
   1695183700, 1986661051, 2177026350, 2456956037, 2730485921, 2820302411,
   3259730800, 3345764771, 3516065817, 3600352804, 4094571909, 275423344,
   430227734, 506948616, 659060556, 883997877, 958139571, 1322822218,
   1537002063, 1747873779, 1955562222, 2024104815, 2227730452, 2361852424,
   2428436474, 2756734187, 3204031479, 3329325298]

def shaInit : List Nat :=
  [
   1779033703, 3144134277, 1013904242, 2773480762,
   1359893119, 2600822924, 528734635, 1541459225]

/-- Message padding: `0x80`, zeros to 56 mod 64, then the bit length big-endian. -/
def shaPad (msg : List Nat) : List Nat :=
  let len := msg.length
  let zeros := (64 + 56 - (len + 1) % 64) % 64
  let bits := len * 8
  msg ++ [0x80] ++ List.replicate zeros 0 ++
    [bits / 2 ^ 56 % 256, bits / 2 ^ 48 % 256, bits / 2 ^ 40 % 256,
     bits / 2 ^ 32 % 256, bits / 2 ^ 24 % 256, bits / 2 ^ 16 % 256,
     bits / 2 ^ 8 % 256, bits % 256]

/-- Big-endian 32-bit words from a padded byte list. -/
def shaWords : List Nat → List Nat
  | b0 :: b1 :: b2 :: b3 :: rest =>
      (((b0 * 256 + b1) * 256 + b2) * 256 + b3) :: shaWords rest
  | _ => []

/-- The 64-entry message schedule from a 16-word block. -/
def shaSchedule (block : List Nat) : Array Nat :=
  (List.range 64).foldl
    (fun w t =>
      if t < 16 then w.push (block.getD t 0)
      else
        let s0 :=
          let x := w.getD (t - 15) 0
          (rotr32 7 x) ^^^ (rotr32 18 x) ^^^ (x >>> 3)
        let s1 :=
          let x := w.getD (t - 2) 0
          (rotr32 17 x) ^^^ (rotr32 19 x) ^^^ (x >>> 10)
        w.push (w32 (w.getD (t - 16) 0 + s0 + w.getD (t - 7) 0 + s1)))
    #[]

/-- One SHA-256 compression round. -/
def shaRound (kt wt : Nat) (h : List Nat) : List Nat :=
  match h with
  | [a, b, c, d, e, f, g, hh] =>
      let s1 := (rotr32 6 e) ^^^ (rotr32 11 e) ^^^ (rotr32 25 e)
      let ch := (e &&& f) ^^^ ((2 ^ 32 - 1 - e) &&& g)
      let t1 := w32 (hh + s1 + ch + kt + wt)
      let s0 := (rotr32 2 a) ^^^ (rotr32 13 a) ^^^ (rotr32 22 a)
      let maj := (a &&& b) ^^^ (a &&& c) ^^^ (b &&& c)
      let t2 := w32 (s0 + maj)
      [w32 (t1 + t2), a, b, c, w32 (d + t1), e, f, g]
  | h => h

/-- Compress one 16-word block into the running hash state. -/
def shaCompress (hs : List Nat) (block : List Nat) : List Nat :=
  let w := shaSchedule block
  let h' := (List.range 64).foldl (fun h t => shaRound (shaK.getD t 0) (w.getD t 0) h) hs
  (hs.zip h').map fun p => w32 (p.1 + p.2)

/-- Split into 16-word blocks. -/
def shaBlocks : List Nat → List (List Nat)
  | [] => []
  | w :: ws => (w :: ws).take 16 :: shaBlocks ((w :: ws).drop 16)
  termination_by l => l.length
  decreasing_by simp [List.length_drop]; omega

/-- SHA-256 digest of a byte list, as eight 32-bit words. -/
def sha256 (msg : List Nat) : List Nat :=
  (shaBlocks (shaWords (shaPad msg))).foldl shaCompress shaInit

def hexDigit (n : Nat) : Char :=
  if n < 10 then Char.ofNat (48 + n) else Char.ofNat (87 + n % 16)

/-- Eight lowercase hex digits of one 32-bit word. -/
def hexWord (x : Nat) : List Char :=
  [hexDigit (x / 2 ^ 28 % 16), hexDigit (x / 2 ^ 24 % 16), hexDigit (x / 2 ^ 20 % 16),
   hexDigit (x / 2 ^ 16 % 16), hexDigit (x / 2 ^ 12 % 16), hexDigit (x / 2 ^ 8 % 16),
   hexDigit (x / 2 ^ 4 % 16), hexDigit (x % 16)]

/-- `hashlib.sha256(text.encode('utf-8')).hexdigest()`. -/
def sha256hex (text : List Char) : List Char :=
  (sha256 (utf8Encode text)).flatMap hexWord

/-! ### Data model -/

/-- A match tuple `(start, end, text)` as produced by `_find_matches`. -/
structure Span where
  start : Nat
  stop : Nat
  txt : List Char
  deriving DecidableEq, Repr

/-- A restoration record `{"pos": ..., "text": ..., "len": ...}`.  `pos` and
`len` are `Int` because a key read back from JSON may carry any integers. -/
structure Rec where
  pos : Int
  txt : List Char
  len : Int
  deriving DecidableEq, Repr

/-- The key dictionary `{"version": ..., "hash": ..., "restorations": ...}`. -/
structure Key where
  version : List Char
  hash : List Char
  restorations : List Rec
  deriving DecidableEq, Repr

/-- The two `ValueError`s `restore` raises: the integrity violation and the
corrupt-key index error (carrying the offending offset). -/
inductive RestoreErr where
  | integrity
  | corruptKey (pos : Int)
  deriving DecidableEq, Repr

/-! ### The matcher (`_find_matches`, phases 1–3)

Each regex of the source is compiled by hand into a positional matcher
`matchEnd : Nat → Option Nat` giving the end of the match the Python regex
engine finds at a given start, and a `finditer` driver replays
`re.finditer`'s left-to-right non-overlapping scan.  The word-character class
behind `\b` and the case folding behind `re.IGNORECASE` are modelled on their
ASCII part. -/

/-- The `\w` class (ASCII part): letters, digits, underscore. -/
def isWordChar (c : Char) : Bool := c.isAlphanum || c == '_'

def isWordAt (t : List Char) (i : Nat) : Bool := (t.get? i).any isWordChar

/-- `\b` between positions `i-1` and `i` (out of range counts as non-word). -/
def boundaryAt (t : List Char) (i : Nat) : Bool :=
  ((decide (i ≠ 0)) && isWordAt t (i - 1)) != isWordAt t i

/-- Length of the maximal run of characters satisfying `p` starting at `i`. -/
def runLen (p : Char → Bool) (t : List Char) (i : Nat) : Nat :=
  ((t.drop i).takeWhile p).length

def isDigitCh (c : Char) : Bool := '0' ≤ c && c ≤ '9'

/-- One `[0-9]{1,3}\.` group of the IPv4 pattern: the digit run (1–3 long)
followed by a literal dot; returns the position after the dot. -/
def ipv4Group (t : List Char) (q : Nat) : Option Nat :=
  let r := runLen isDigitCh t q
  if 1 ≤ r ∧ r ≤ 3 ∧ t.get? (q + r) = some '.' then some (q + r + 1) else none

/-- The final `[0-9]{1,3}\b` of the IPv4 pattern. -/
def ipv4Final (t : List Char) (q : Nat) : Option Nat :=
  let r := runLen isDigitCh t q
  if 1 ≤ r ∧ r ≤ 3 ∧ boundaryAt t (q + r) = true then some (q + r) else none

/-- `\b(?:[0-9]{1,3}\.){3}[0-9]{1,3}\b` at position `p`. -/
def ipv4MatchEnd (t : List Char) (p : Nat) : Option Nat :=
  if boundaryAt t p then
    match ipv4Group t p with
    | none => none
    | some q1 =>
        match ipv4Group t q1 with
        | none => none
        | some q2 =>
            match ipv4Group t q2 with
            | none => none
            | some q3 => ipv4Final t q3
  else none

def charTest (t : List Char) (i : Nat) (f : Char → Bool) : Bool := (t.get? i).any f

/-- Consecutive single-character tests starting at `p`. -/
def matchSeq (t : List Char) : Nat → List (Char → Bool) → Bool
  | _, [] => true
  | p, f :: fs => charTest t p f && matchSeq t (p + 1) fs

/-- The three ten-character alternatives of the date pattern:
`\d{4}-\d{2}-\d{2}`, `\d{2}\.\d{2}\.\d{4}`, `\d{2}/\d{2}/\d{4}`. -/
def dateAlts : List (List (Char → Bool)) :=
  [[isDigitCh, isDigitCh, isDigitCh, isDigitCh, (· == '-'), isDigitCh, isDigitCh,
    (· == '-'), isDigitCh, isDigitCh],
   [isDigitCh, isDigitCh, (· == '.'), isDigitCh, isDigitCh, (· == '.'), isDigitCh,
    isDigitCh, isDigitCh, isDigitCh],
   [isDigitCh, isDigitCh, (· == '/'), isDigitCh, isDigitCh, (· == '/'), isDigitCh,
    isDigitCh, isDigitCh, isDigitCh]]

/-- The date pattern (boundary-delimited alternation) at position `p`. -/
def dateMatchEnd (t : List Char) (p : Nat) : Option Nat :=
  if boundaryAt t p ∧ dateAlts.any (fun alt => matchSeq t p alt && boundaryAt t (p + 10))
  then some (p + 10) else none

/-- `[A-Za-z0-9._%+-]`, the email local-part class. -/
def localCh (c : Char) : Bool :=
  c.isAlpha || c.isDigit || c == '.' || c == '_' || c == '%' || c == '+' || c == '-'

/-- `[A-Za-z0-9.-]`, the email domain class. -/
def domCh (c : Char) : Bool := c.isAlpha || c.isDigit || c == '.' || c == '-'

/-- `[A-Z|a-z]`, the top-level-label class (the literal `|` included). -/
def tldCh (c : Char) : Bool := ('A' ≤ c && c ≤ 'Z') || c == '|' || ('a' ≤ c && c ≤ 'z')

/-- Greedy `{2,}` with the trailing `\b`: the largest `k ≤ kmax` with a word
boundary after `t0 + k`, `k ≥ 2`. -/
def tldDown (t : List Char) (t0 : Nat) : Nat → Option Nat
  | 0 => none
  | 1 => none
  | k + 2 => if boundaryAt t (t0 + k + 2) then some (t0 + k + 2) else tldDown t t0 (k + 1)

/-- `[A-Z|a-z]{2,}\b` starting at `t0`. -/
def tldMatch (t : List Char) (t0 : Nat) : Option Nat := tldDown t t0 (runLen tldCh t t0)

/-- Backtracking over the greedy domain run: the largest domain length `d ≥ 1`
followed by a literal dot and a successful top-level label. -/
def domDown (t : List Char) (s0 : Nat) : Nat → Option Nat
  | 0 => none
  | d + 1 =>
      if t.get? (s0 + d + 1) = some '.' then
        match tldMatch t (s0 + d + 2) with
        | some e => some e
        | none => domDown t s0 d
      else domDown t s0 d

/-- `\b[A-Za-z0-9._%+-]+@[A-Za-z0-9.-]+\.[A-Z|a-z]{2,}\b` at position `p`. -/
def emailMatchEnd (t : List Char) (p : Nat) : Option Nat :=
  if boundaryAt t p then
    let L := runLen localCh t p
    if 1 ≤ L ∧ t.get? (p + L) = some '@' then
      domDown t (p + L + 1) (runLen domCh t (p + L + 1))
    else none
  else none

/-- `\b[A-Z][a-z]+\b` (the capitalization heuristic) at position `p`. -/
def capsMatchEnd (t : List Char) (p : Nat) : Option Nat :=
  if boundaryAt t p ∧ charTest t p (fun c => 'A' ≤ c && c ≤ 'Z') then
    let r := runLen (fun c => 'a' ≤ c && c ≤ 'z') t (p + 1)
    if 1 ≤ r ∧ boundaryAt t (p + 1 + r) then some (p + 1 + r) else none
  else none

/-- Case folding of `re.IGNORECASE` (ASCII part). -/
def ciEqCh (a b : Char) : Bool := a.toLower == b.toLower

/-- The escaped custom word matched literally, case-insensitively, at `p`. -/
def ciWordAt : List Char → List Char → Nat → Bool
  | [], _, _ => true
  | c :: w, t, p => (t.get? p).any (fun d => ciEqCh c d) && ciWordAt w t (p + 1)

/-- `\b` + `re.escape(word)` + `\b` with `re.IGNORECASE` at position `p`. -/
def wordMatchEnd (t : List Char) (w : List Char) (p : Nat) : Option Nat :=
  if boundaryAt t p ∧ ciWordAt w t p ∧ boundaryAt t (p + w.length) then
    some (p + w.length)
  else none

/-- `re.finditer`: scan left to right, emit non-overlapping matches, resume
after each match (at least one position forward). -/
def finditerAux (matchEnd : Nat → Option Nat) (t : List Char) : Nat → Nat → List Span
  | 0, _ => []
  | fuel + 1, p =>
      match matchEnd p with
      | some e => ⟨p, e, pySlice t p e⟩ :: finditerAux matchEnd t fuel (max e (p + 1))
      | none => finditerAux matchEnd t fuel (p + 1)

def finditer (matchEnd : Nat → Option Nat) (t : List Char) : List Span :=
  finditerAux matchEnd t (t.length + 1) 0

/-! ### Conflict resolution (the tail of `_find_matches`) -/

/-- Python's stable `matches.sort(key=lambda x: x[0])`. -/
def sortByStart (l : List Span) : List Span :=
  List.insertionSort (fun a b => a.start ≤ b.start) l

/-- The overlap walk: keep the first span, drop any later span whose start is
strictly before the end of the last kept span. -/
def resolveAux (last : Span) : List Span → List Span
  | [] => []
  | m :: rest =>
      if m.start < last.stop then resolveAux last rest
      else m :: resolveAux m rest

def resolveOverlaps : List Span → List Span
  | [] => []
  | m :: rest => m :: resolveAux m rest

/-- The Conflict Resolver: stable sort ascending by start, then first-wins. -/
def resolveCandidates (l : List Span) : List Span := resolveOverlaps (sortByStart l)

/-- `_find_matches`: the three standard recognizers, the custom words, the
optional capitalization heuristic, then conflict resolution. -/
def find_matches (t : List Char) (custom_words : List (List Char))
    (redact_caps : Bool) : List Span :=
  let phase1 := finditer (ipv4MatchEnd t) t ++ finditer (dateMatchEnd t) t ++
    finditer (emailMatchEnd t) t
  let phase2 := custom_words.flatMap fun w =>
    if w.isEmpty then [] else finditer (wordMatchEnd t w) t
  let phase3 := if redact_caps then finditer (capsMatchEnd t) t else []
  resolveCandidates (phase1 ++ phase2 ++ phase3)

/-! ### Redaction (`redact`) -/

/-- The noise-style alphabet `"XJ9#kL@!%&?"`. -/
def noiseAlphabet : List Char := "XJ9#kL@!%&?".data

/-- The style-specific substitute token for one span's original text.  The
noise style's `random.choice` draws are supplied by `pick` (span index, char
index), always an index into the fixed alphabet. -/
def substitute (style : String) (pick : Nat → Nat → Fin noiseAlphabet.length)
    (i : Nat) (original : List Char) : List Char :=
  if style = "BLACKOUT" then List.replicate original.length '█'
  else if style = "VECTURE_NOISE" then
    (List.range original.length).map fun j => noiseAlphabet.get (pick i j)
  else "[REDACTED]".data

/-- The redaction loop: append the untouched text since the previous span,
record a restoration at the current output length, append the substitute. -/
def applySpans (text : List Char) (style : String)
    (pick : Nat → Nat → Fin noiseAlphabet.length) :
    List Span → Nat → List Char → Nat → List Char × List Rec
  | [], current_idx, acc, _ => (acc ++ text.drop current_idx, [])
  | sp :: rest, current_idx, acc, i =>
      let acc1 := acc ++ pySlice text current_idx sp.start
      let repl := substitute style pick i sp.txt
      let r : Rec := ⟨(acc1.length : Int), sp.txt, (repl.length : Int)⟩
      let (fin, recs) := applySpans text style pick rest sp.stop (acc1 ++ repl) (i + 1)
      (fin, r :: recs)

/-- `VectureRedactor.redact`. -/
def redact (text : List Char) (style : String) (custom_words : List (List Char))
    (redact_caps : Bool) (pick : Nat → Nat → Fin noiseAlphabet.length) :
    List Char × Key :=
  let ms := find_matches text custom_words redact_caps
  let (final_redacted_text, key_restorations) := applySpans text style pick ms 0 [] 0
  (final_redacted_text,
    { version := "1.0".data, hash := sha256hex final_redacted_text,
      restorations := key_restorations })

/-! ### Restoration (`restore`) -/

/-- Python's stable `restorations.sort(key=lambda x: x["pos"], reverse=True)`. -/
def sortDescPos (l : List Rec) : List Rec :=
  List.insertionSort (fun a b => b.pos ≤ a.pos) l

/-- The reinsertion loop: bounds-check each record against the current text,
then splice the original back over the substitute's slice. -/
def restoreLoop : List Rec → List Char → Except RestoreErr (List Char)
  | [], result => .ok result
  | r :: rest, result =>
      if r.pos < 0 ∨ r.pos + r.len > (result.length : Int) then
        .error (.corruptKey r.pos)
      else
        restoreLoop rest
          (pySliceTo result r.pos ++ r.txt ++ pySliceFrom result (r.pos + r.len))

/-- `VectureRedactor.restore`.  The second component is the state of the
caller's key after the call: `restorations.sort(...)` sorts the key's own
list in place once the integrity check has passed. -/
def restore (redacted_text : List Char) (key : Key) :
    Except RestoreErr (List Char) × Key :=
  if sha256hex redacted_text ≠ key.hash then (.error .integrity, key)
  else
    let sorted := sortDescPos key.restorations
    (restoreLoop sorted redacted_text, { key with restorations := sorted })

/-! ### Key codec (`obfuscate_key` / `deobfuscate_key`)

`json.dumps`/`json.loads`, `zlib.compress`/`zlib.decompress` and
`base64.b64encode`/`b64decode` are external stdlib collaborators; they enter
as parameters, fallible directions returning `Option`.  `str.replace` is
modelled concretely. -/

/-- Python `s.replace(old, new)`: replace every non-overlapping occurrence,
scanning left to right (`old` here is never empty). -/
def replaceAll (old new : List Char) : Nat → List Char → List Char
  | 0, s => s
  | _ + 1, [] => []
  | fuel + 1, c :: s =>
      if old.isPrefixOf (c :: s) then
        new ++ replaceAll old new fuel ((c :: s).drop old.length)
      else c :: replaceAll old new fuel s

def pyReplace (s old new : List Char) : List Char := replaceAll old new s.length s

def keyMarker : List Char := "VECTURE_KEY:".data

/-- `VectureRedactor.obfuscate_key`, over the stdlib parameters. -/
def obfuscate_key (dumps : Key → List Char) (compress : List Nat → List Nat)
    (b64encode : List Nat → List Char) (key_data : Key) : List Char :=
  keyMarker ++ b64encode (compress (utf8Encode (dumps key_data)))

/-- `VectureRedactor.deobfuscate_key`: `.ok` a key, `.error ()` the
`ValueError` paths (invalid obfuscated key / not JSON). -/
def deobfuscate_key (b64decode : List Char → Option (List Nat))
    (decompress : List Nat → Option (List Nat))
    (loadsBytes : List Nat → Option Key) (loadsStr : List Char → Option Key)
    (key_content : List Char) : Except Unit Key :=
  if keyMarker.isPrefixOf key_content then
    let stripped := pyReplace key_content keyMarker []
    match b64decode stripped with
    | none => .error ()
    | some decoded =>
        match decompress decoded with
        | none => .error ()
        | some decompressed =>
            match loadsBytes decompressed with
            | none => .error ()
            | some k => .ok k
  else
    match loadsStr key_content with
    | none => .error ()
    | some k => .ok k

/-! ### Well-formedness predicates used in the statements -/

/-- A well-formed span of `t`: non-empty, in bounds, carrying its own slice. -/
def ValidSpan (t : List Char) (sp : Span) : Prop :=
  sp.start < sp.stop ∧ sp.stop ≤ t.length ∧ sp.txt = pySlice t sp.start sp.stop

/-- A resolved span list over `t` starting at offset `cur`: consecutive,
non-overlapping, well-formed spans. -/
def SpanChain (t : List Char) : Nat → List Span → Prop
  | _, [] => True
  | cur, sp :: rest =>
      cur ≤ sp.start ∧ ValidSpan t sp ∧ SpanChain t sp.stop rest

instance : DecidableEq (Except RestoreErr (List Char)) := fun a b =>
  match a, b with
  | .ok x, .ok y =>
      match decEq x y with
      | isTrue h => isTrue (congrArg Except.ok h)
      | isFalse h => isFalse fun hh => h (Except.ok.inj hh)
  | .error x, .error y =>
      match decEq x y with
      | isTrue h => isTrue (congrArg Except.error h)
      | isFalse h => isFalse fun hh => h (Except.error.inj hh)
  | .ok _, .error _ => isFalse fun hh => Except.noConfusion hh
  | .error _, .ok _ => isFalse fun hh => Except.noConfusion hh

/-- A convenient constructor for a key whose hash matches a given text. -/
def mkKey (r : List Char) (recs : List Rec) : Key :=
  { version := "1.0".data, hash := sha256hex r, restorations := recs }

/-- A fixed sequence of noise draws, used to instantiate concrete calls. -/
def pick0 : Nat → Nat → Fin noiseAlphabet.length := fun _ _ => ⟨0, by decide⟩

end Vecture

namespace Vecture

/-! ## Lemmas: basic list facts -/

theorem takeWhile_length_le (p : Char → Bool) :
    ∀ l : List Char, (l.takeWhile p).length ≤ l.length
  | [] => by simp
  | c :: l => by
    rw [List.takeWhile]
    cases p c
    · simp
    · simpa using takeWhile_length_le p l

theorem runLen_le (p : Char → Bool) (t : List Char) (i : Nat) :
    runLen p t i ≤ t.length - i := by
  have h := takeWhile_length_le p (t.drop i)
  simpa [runLen, List.length_drop] using h

theorem get?_some_lt {t : List Char} {i : Nat} {c : Char}
    (h : t.get? i = some c) : i < t.length := by
  by_contra hc
  rw [List.get?_eq_none.2 (by omega)] at h
  exact Option.noConfusion h

theorem charTest_lt {t : List Char} {i : Nat} {f : Char → Bool}
    (h : charTest t i f = true) : i < t.length := by
  unfold charTest at h
  cases hg : t.get? i with
  | none => rw [hg] at h; simp [Option.any] at h
  | some c => exact get?_some_lt hg

/-- Gluing a well-formed slice back onto the tail it precedes. -/
theorem pySlice_append_drop (t : List Char) (a b : Nat) (h1 : a ≤ b)
    (h2 : b ≤ t.length) : pySlice t a b ++ t.drop b = t.drop a := by
  have hlen : a ≤ (t.take b).length := by simp [List.length_take]; omega
  calc pySlice t a b ++ t.drop b = (t.take b).drop a ++ t.drop b := rfl
    _ = (t.take b ++ t.drop b).drop a := (List.drop_append_of_le_length hlen).symm
    _ = t.drop a := by rw [List.take_append_drop]

/-! ## Lemmas: every candidate the matcher emits is a valid span -/

theorem ipv4Group_spec {t : List Char} {q q' : Nat} (h : ipv4Group t q = some q') :
    q + 2 ≤ q' ∧ q' ≤ t.length := by
  simp only [ipv4Group] at h
  split at h
  · rename_i hc
    obtain ⟨h1, -, hdot⟩ := hc
    have := get?_some_lt hdot
    injection h with h
    omega
  · exact Option.noConfusion h

theorem ipv4Final_spec {t : List Char} {q e : Nat} (h : ipv4Final t q = some e) :
    q + 1 ≤ e ∧ e ≤ t.length := by
  simp only [ipv4Final] at h
  split at h
  · rename_i hc
    obtain ⟨h1, h3, -⟩ := hc
    have hr := runLen_le isDigitCh t q
    injection h with h
    omega
  · exact Option.noConfusion h

theorem ipv4MatchEnd_valid {t : List Char} {p e : Nat}
    (h : ipv4MatchEnd t p = some e) : p < e ∧ e ≤ t.length := by
  unfold ipv4MatchEnd at h
  split at h
  · cases h1 : ipv4Group t p with
    | none => rw [h1] at h; exact Option.noConfusion h
    | some q1 =>
      rw [h1] at h; dsimp only at h
      cases h2 : ipv4Group t q1 with
      | none => rw [h2] at h; exact Option.noConfusion h
      | some q2 =>
        rw [h2] at h; dsimp only at h
        cases h3 : ipv4Group t q2 with
        | none => rw [h3] at h; exact Option.noConfusion h
        | some q3 =>
          rw [h3] at h; dsimp only at h
          have s1 := ipv4Group_spec h1
          have s2 := ipv4Group_spec h2
          have s3 := ipv4Group_spec h3
          have s4 := ipv4Final_spec h
          omega
  · exact Option.noConfusion h

theorem matchSeq_le {t : List Char} {fs : List (Char → Bool)} {p : Nat}
    (h : matchSeq t p fs = true) (hne : fs ≠ []) : p + fs.length ≤ t.length := by
  induction fs generalizing p with
  | nil => exact absurd rfl hne
  | cons f fs ih =>
    rw [matchSeq, Bool.and_eq_true] at h
    cases fs with
    | nil =>
      have := charTest_lt h.1
      simp; omega
    | cons g gs =>
      have := ih h.2 (by simp)
      simp at this ⊢
      omega

theorem dateMatchEnd_valid {t : List Char} {p e : Nat}
    (h : dateMatchEnd t p = some e) : p < e ∧ e ≤ t.length := by
  unfold dateMatchEnd at h
  split at h
  · rename_i hc
    injection h with h
    obtain ⟨-, halt⟩ := hc
    rw [List.any_eq_true] at halt
    obtain ⟨alt, hmem, htest⟩ := halt
    rw [Bool.and_eq_true] at htest
    have hlen : alt.length = 10 := by
      simp only [dateAlts, List.mem_cons, List.not_mem_nil, or_false] at hmem
      rcases hmem with h | h | h <;> subst h <;> rfl
    have := matchSeq_le htest.1 (by intro hn; rw [hn] at hlen; simp at hlen)
    omega
  · exact Option.noConfusion h

theorem tldDown_spec {t : List Char} {t0 e : Nat} :
    ∀ {k : Nat}, tldDown t t0 k = some e → ∃ j, e = t0 + j ∧ 2 ≤ j ∧ j ≤ k
  | 0, h => Option.noConfusion h
  | 1, h => Option.noConfusion h
  | k + 2, h => by
    rw [tldDown] at h
    split at h
    · injection h with h
      exact ⟨k + 2, by omega, by omega, le_refl _⟩
    · obtain ⟨j, hj⟩ := tldDown_spec h
      exact ⟨j, hj.1, hj.2.1, by omega⟩

theorem tldMatch_spec {t : List Char} {t0 e : Nat} (h : tldMatch t t0 = some e) :
    t0 + 2 ≤ e ∧ e ≤ t.length := by
  obtain ⟨j, he, h2, hk⟩ := tldDown_spec h
  have := runLen_le tldCh t t0
  omega

theorem domDown_spec {t : List Char} {s0 e : Nat} :
    ∀ {d : Nat}, domDown t s0 d = some e → s0 + 3 ≤ e ∧ e ≤ t.length
  | 0, h => Option.noConfusion h
  | d + 1, h => by
    rw [domDown] at h
    split at h
    · cases htl : tldMatch t (s0 + d + 2) with
      | none => rw [htl] at h; exact domDown_spec h
      | some e' =>
        rw [htl] at h
        injection h with h
        subst h
        have := tldMatch_spec htl
        omega
    · exact domDown_spec h

theorem emailMatchEnd_valid {t : List Char} {p e : Nat}
    (h : emailMatchEnd t p = some e) : p < e ∧ e ≤ t.length := by
  simp only [emailMatchEnd] at h
  split at h
  · split at h
    · rename_i hc
      have := domDown_spec h
      omega
    · exact Option.noConfusion h
  · exact Option.noConfusion h

theorem capsMatchEnd_valid {t : List Char} {p e : Nat}
    (h : capsMatchEnd t p = some e) : p < e ∧ e ≤ t.length := by
  simp only [capsMatchEnd] at h
  split at h
  · split at h
    · rename_i hc
      have hr := runLen_le (fun c => 'a' ≤ c && c ≤ 'z') t (p + 1)
      injection h with h
      omega
    · exact Option.noConfusion h
  · exact Option.noConfusion h

theorem ciWordAt_le {t : List Char} {w : List Char} {p : Nat}
    (h : ciWordAt w t p = true) (hne : w ≠ []) : p + w.length ≤ t.length := by
  induction w generalizing p with
  | nil => exact absurd rfl hne
  | cons c w ih =>
    rw [ciWordAt, Bool.and_eq_true] at h
    cases w with
    | nil =>
      have hlt : p < t.length := by
        rcases hg : t.get? p with - | d
        · rw [hg] at h; simp [Option.any] at h
        · exact get?_some_lt hg
      simp; omega
    | cons d ds =>
      have := ih h.2 (by simp)
      simp at this ⊢
      omega

theorem wordMatchEnd_valid {t w : List Char} {p e : Nat} (hw : w ≠ [])
    (h : wordMatchEnd t w p = some e) : p < e ∧ e ≤ t.length := by
  unfold wordMatchEnd at h
  split at h
  · rename_i hc
    have := ciWordAt_le hc.2.1 hw
    have hlen : 0 < w.length := List.length_pos.2 hw
    injection h with h
    omega
  · exact Option.noConfusion h

/-- Every span `finditer` emits is valid, provided the positional matcher
only reports in-bounds, non-empty matches. -/
theorem finditerAux_valid {matchEnd : Nat → Option Nat} {t : List Char}
    (hm : ∀ p e, matchEnd p = some e → p < e ∧ e ≤ t.length) :
    ∀ {fuel p0 : Nat} {sp : Span}, sp ∈ finditerAux matchEnd t fuel p0 →
      ValidSpan t sp := by
  intro fuel
  induction fuel with
  | zero => intro p0 sp h; exact absurd h (by simp [finditerAux])
  | succ n ih =>
    intro p0 sp h
    rw [finditerAux] at h
    cases he : matchEnd p0 with
    | none => rw [he] at h; exact ih h
    | some e =>
      rw [he] at h
      rcases List.mem_cons.1 h with h | h
      · subst h
        exact ⟨(hm _ _ he).1, (hm _ _ he).2, rfl⟩
      · exact ih h

theorem finditer_valid {matchEnd : Nat → Option Nat} {t : List Char}
    (hm : ∀ p e, matchEnd p = some e → p < e ∧ e ≤ t.length) :
    ∀ {sp : Span}, sp ∈ finditer matchEnd t → ValidSpan t sp :=
  fun h => finditerAux_valid hm h

/-- Every candidate phase 1–3 of `_find_matches` emits is a valid span. -/
theorem candidates_valid (t : List Char) (custom_words : List (List Char))
    (redact_caps : Bool) {sp : Span}
    (h : sp ∈ finditer (ipv4MatchEnd t) t ++ finditer (dateMatchEnd t) t ++
        finditer (emailMatchEnd t) t ++
      (custom_words.flatMap fun w =>
        if w.isEmpty then [] else finditer (wordMatchEnd t w) t) ++
      (if redact_caps then finditer (capsMatchEnd t) t else [])) :
    ValidSpan t sp := by
  simp only [List.mem_append] at h
  rcases h with ((((h | h) | h) | h) | h)
  · exact finditer_valid (fun p e => ipv4MatchEnd_valid) h
  · exact finditer_valid (fun p e => dateMatchEnd_valid) h
  · exact finditer_valid (fun p e => emailMatchEnd_valid) h
  · rw [List.mem_flatMap] at h
    obtain ⟨w, -, hw⟩ := h
    split at hw
    · exact absurd hw (by simp)
    · rename_i hne
      exact finditer_valid
        (fun p e => wordMatchEnd_valid (by simpa [List.isEmpty_iff] using hne)) hw
  · split at h
    · exact finditer_valid (fun p e => capsMatchEnd_valid) h
    · exact absurd h (by simp)

/-! ## Lemmas: the conflict resolver -/

theorem resolveAux_subset {last : Span} :
    ∀ {l : List Span} {sp : Span}, sp ∈ resolveAux last l → sp ∈ l := by
  intro l
  induction l generalizing last with
  | nil => intro sp h; exact absurd h (by simp [resolveAux])
  | cons m rest ih =>
    intro sp h
    rw [resolveAux] at h
    split at h
    · exact List.mem_cons_of_mem m (ih h)
    · rcases List.mem_cons.1 h with h | h
      · exact h ▸ List.mem_cons_self m rest
      · exact List.mem_cons_of_mem m (ih h)

theorem resolveOverlaps_subset :
    ∀ {l : List Span} {sp : Span}, sp ∈ resolveOverlaps l → sp ∈ l := by
  intro l sp h
  cases l with
  | nil => exact absurd h (by simp [resolveOverlaps])
  | cons m rest =>
    rw [resolveOverlaps] at h
    rcases List.mem_cons.1 h with h | h
    · exact h ▸ List.mem_cons_self m rest
    · exact List.mem_cons_of_mem m (resolveAux_subset h)

/-- The overlap walk yields a non-overlapping chain of valid spans starting
at the end of the last kept span. -/
theorem resolveAux_spanChain {t : List Char} :
    ∀ {l : List Span} {last : Span}, (∀ sp ∈ l, ValidSpan t sp) →
      SpanChain t last.stop (resolveAux last l) := by
  intro l
  induction l with
  | nil => intro last h; trivial
  | cons m rest ih =>
    intro last h
    rw [resolveAux]
    split
    · exact ih fun sp hsp => h sp (List.mem_cons_of_mem m hsp)
    · rename_i hkeep
      refine ⟨by omega, h m (List.mem_cons_self m rest), ?_⟩
      exact ih fun sp hsp => h sp (List.mem_cons_of_mem m hsp)

theorem resolveOverlaps_spanChain {t : List Char} {l : List Span}
    (h : ∀ sp ∈ l, ValidSpan t sp) : SpanChain t 0 (resolveOverlaps l) := by
  cases l with
  | nil => trivial
  | cons m rest =>
    rw [resolveOverlaps]
    exact ⟨Nat.zero_le _, h m (List.mem_cons_self m rest),
      resolveAux_spanChain fun sp hsp => h sp (List.mem_cons_of_mem m hsp)⟩

theorem sortByStart_mem {l : List Span} {sp : Span} :
    sp ∈ sortByStart l ↔ sp ∈ l :=
  (List.perm_insertionSort (fun a b => a.start ≤ b.start) l).mem_iff

theorem resolveCandidates_spanChain {t : List Char} {l : List Span}
    (h : ∀ sp ∈ l, ValidSpan t sp) : SpanChain t 0 (resolveCandidates l) :=
  resolveOverlaps_spanChain fun sp hsp => h sp (sortByStart_mem.1 hsp)

/-- The resolved matches of `_find_matches` form a valid, non-overlapping,
left-to-right span chain of the input text. -/
theorem find_matches_spanChain (t : List Char) (custom_words : List (List Char))
    (redact_caps : Bool) :
    SpanChain t 0 (find_matches t custom_words redact_caps) := by
  unfold find_matches
  exact resolveCandidates_spanChain fun sp hsp =>
    candidates_valid t custom_words redact_caps (by simpa using hsp)

/-! ## Lemmas: the redaction loop and its restoration records -/

theorem applySpans_cons (t : List Char) (style : String)
    (pick : Nat → Nat → Fin noiseAlphabet.length) (sp : Span) (rest : List Span)
    (cur : Nat) (acc : List Char) (i : Nat) :
    applySpans t style pick (sp :: rest) cur acc i =
      ((applySpans t style pick rest sp.stop
          ((acc ++ pySlice t cur sp.start) ++ substitute style pick i sp.txt) (i + 1)).1,
        (⟨((acc ++ pySlice t cur sp.start).length : Int), sp.txt,
          ((substitute style pick i sp.txt).length : Int)⟩ : Rec) ::
            (applySpans t style pick rest sp.stop
              ((acc ++ pySlice t cur sp.start) ++ substitute style pick i sp.txt)
              (i + 1)).2) := by
  rw [applySpans]

theorem substitute_length_pos (style : String)
    (pick : Nat → Nat → Fin noiseAlphabet.length) (i : Nat) {original : List Char}
    (h : original ≠ []) : 0 < (substitute style pick i original).length := by
  have hlen : 0 < original.length := List.length_pos.2 h
  unfold substitute
  split
  · simpa using hlen
  · split
    · simpa using hlen
    · simp

theorem validSpan_txt_ne_nil {t : List Char} {sp : Span} (h : ValidSpan t sp) :
    sp.txt ≠ [] := by
  obtain ⟨h1, h2, h3⟩ := h
  have : sp.txt.length = sp.stop - sp.start := by
    rw [h3]; simp [pySlice, List.length_drop, List.length_take]; omega
  intro hn
  rw [hn] at this
  simp at this
  omega

/-- Every record the loop emits sits at or after the accumulator's end. -/
theorem applySpans_recs_ge {t : List Char} {style : String}
    {pick : Nat → Nat → Fin noiseAlphabet.length} :
    ∀ {spans : List Span} {cur : Nat} {acc : List Char} {i : Nat},
      SpanChain t cur spans →
      ∀ r ∈ (applySpans t style pick spans cur acc i).2, (acc.length : Int) ≤ r.pos := by
  intro spans
  induction spans with
  | nil => intro cur acc i hch r hr; exact absurd hr (by simp [applySpans])
  | cons sp rest ih =>
    intro cur acc i hch r hr
    obtain ⟨hcur, hv, hch'⟩ := hch
    rw [applySpans_cons] at hr
    rcases List.mem_cons.1 hr with hr | hr
    · subst hr; simp
    · have := ih hch' r hr
      simp only [List.length_append] at this
      omega

/-- The records the loop emits have strictly increasing positions. -/
theorem applySpans_recs_sorted {t : List Char} {style : String}
    {pick : Nat → Nat → Fin noiseAlphabet.length} :
    ∀ {spans : List Span} {cur : Nat} {acc : List Char} {i : Nat},
      SpanChain t cur spans →
      List.Pairwise (fun a b : Rec => a.pos < b.pos)
        (applySpans t style pick spans cur acc i).2 := by
  intro spans
  induction spans with
  | nil => intro cur acc i hch; simp [applySpans]
  | cons sp rest ih =>
    intro cur acc i hch
    obtain ⟨hcur, hv, hch'⟩ := hch
    rw [applySpans_cons]
    refine List.Pairwise.cons ?_ (ih hch')
    intro r hr
    have hge := applySpans_recs_ge hch' r hr
    have hpos := substitute_length_pos style pick i (validSpan_txt_ne_nil hv)
    simp only [List.length_append] at hge ⊢
    omega

theorem restoreLoop_append (l1 l2 : List Rec) (s : List Char) :
    restoreLoop (l1 ++ l2) s =
      match restoreLoop l1 s with
      | .ok s' => restoreLoop l2 s'
      | .error e => .error e := by
  induction l1 generalizing s with
  | nil => simp [restoreLoop]
  | cons r l1 ih =>
    rw [List.cons_append, restoreLoop, restoreLoop]
    split
    · rfl
    · exact ih _

theorem pyBound_coe_le {m n : Nat} (h : m ≤ n) : pyBound n (m : Int) = m := by
  unfold pyBound
  rw [if_neg (by omega)]
  omega

/-- Applying the emitted records back-to-front onto the redacted output
recovers the accumulator followed by the unprocessed tail of the text. -/
theorem applySpans_restore {t : List Char} {style : String}
    {pick : Nat → Nat → Fin noiseAlphabet.length} :
    ∀ {spans : List Span} {cur : Nat} {acc : List Char} {i : Nat},
      SpanChain t cur spans →
      restoreLoop (applySpans t style pick spans cur acc i).2.reverse
          (applySpans t style pick spans cur acc i).1 =
        .ok (acc ++ t.drop cur) := by
  intro spans
  induction spans with
  | nil => intro cur acc i hch; rfl
  | cons sp rest ih =>
    intro cur acc i hch
    obtain ⟨hcur, hv, hch'⟩ := hch
    obtain ⟨hlt, hle, htxt⟩ := hv
    rw [applySpans_cons]
    set acc1 := acc ++ pySlice t cur sp.start with hacc1
    set repl := substitute style pick i sp.txt with hrepl
    simp only [List.reverse_cons]
    rw [restoreLoop_append, ih hch']
    dsimp only
    have hrlen : 0 < repl.length :=
      substitute_length_pos style pick i (validSpan_txt_ne_nil ⟨hlt, hle, htxt⟩)
    set tail := t.drop sp.stop with htail
    have hS : (acc1 ++ repl) ++ tail = acc1 ++ (repl ++ tail) := by
      rw [List.append_assoc]
    rw [restoreLoop]
    rw [if_neg (by
      push_cast
      simp only [List.length_append]
      omega)]
    rw [restoreLoop]
    have hb1 : pyBound ((acc1 ++ repl) ++ tail).length (acc1.length : Int) =
        acc1.length :=
      pyBound_coe_le (by simp only [List.length_append]; omega)
    have hb2 : pyBound ((acc1 ++ repl) ++ tail).length
        ((acc1.length : Int) + (repl.length : Int)) = acc1.length + repl.length := by
      have := pyBound_coe_le (m := acc1.length + repl.length)
        (n := ((acc1 ++ repl) ++ tail).length) (by simp [List.length_append])
      push_cast at this ⊢
      exact this
    rw [show pySliceTo ((acc1 ++ repl) ++ tail) (acc1.length : Int) = acc1 by
      unfold pySliceTo
      rw [hb1, hS, List.take_left]]
    rw [show pySliceFrom ((acc1 ++ repl) ++ tail)
          ((acc1.length : Int) + (repl.length : Int)) = tail by
      unfold pySliceFrom
      rw [hb2, show acc1.length + repl.length = (acc1 ++ repl).length by
        simp [List.length_append], List.drop_left]]
    rw [htxt, htail]
    dsimp only
    rw [List.append_assoc, pySlice_append_drop t sp.start sp.stop (by omega) hle,
      hacc1, List.append_assoc,
      pySlice_append_drop t cur sp.start (by omega) (by omega)]

/-! ## Lemmas: the descending sort of `restore` -/

theorem orderedInsert_last {r : Rec → Rec → Prop} [DecidableRel r] {a : Rec} :
    ∀ {l : List Rec}, (∀ b ∈ l, ¬ r a b) → List.orderedInsert r a l = l ++ [a] := by
  intro l
  induction l with
  | nil => intro h; rfl
  | cons b l ih =>
    intro h
    rw [List.orderedInsert, if_neg (h b (List.mem_cons_self b l))]
    rw [ih fun x hx => h x (List.mem_cons_of_mem b hx), List.cons_append]

/-- On records with strictly increasing positions, the stable descending sort
is exactly list reversal. -/
theorem sortDescPos_of_strict_inc :
    ∀ {l : List Rec}, List.Pairwise (fun a b : Rec => a.pos < b.pos) l →
      sortDescPos l = l.reverse := by
  intro l
  induction l with
  | nil => intro h; rfl
  | cons a l ih =>
    intro h
    rw [List.pairwise_cons] at h
    unfold sortDescPos at ih ⊢
    rw [List.insertionSort, ih h.2, List.reverse_cons]
    refine orderedInsert_last ?_
    intro b hb
    have := h.1 b (by simpa using hb)
    omega

/-- Unfolding `redact` to the redaction loop's output. -/
theorem redact_def (text : List Char) (style : String)
    (custom_words : List (List Char)) (redact_caps : Bool)
    (pick : Nat → Nat → Fin noiseAlphabet.length) :
    redact text style custom_words redact_caps pick =
      ((applySpans text style pick (find_matches text custom_words redact_caps)
          0 [] 0).1,
        { version := "1.0".data,
          hash := sha256hex (applySpans text style pick
            (find_matches text custom_words redact_caps) 0 [] 0).1,
          restorations := (applySpans text style pick
            (find_matches text custom_words redact_caps) 0 [] 0).2 }) := by
  rw [redact]

/-- `restore` on a key whose anchor matches the supplied text: the integrity
check passes and the sorted records are replayed. -/
theorem restore_hash_ok (r : List Char) (v : List Char) (recs : List Rec) :
    restore r ⟨v, sha256hex r, recs⟩ =
      (restoreLoop (sortDescPos recs) r, ⟨v, sha256hex r, sortDescPos recs⟩) := by
  rw [restore, if_neg (by intro h; exact h rfl)]

/-- `restore` on a key whose anchor does not match: the integrity error, the
key untouched. -/
theorem restore_hash_bad (r : List Char) (key : Key)
    (h : sha256hex r ≠ key.hash) : restore r key = (.error .integrity, key) := by
  rw [restore, if_pos h]

/-! ## Lemmas: resolver output invariants (pairwise form) -/

theorem resolveAux_pairwise :
    ∀ {l : List Span} {last : Span}, (∀ sp ∈ l, sp.start < sp.stop) →
      List.Pairwise (fun a b : Span => a.stop ≤ b.start) (last :: resolveAux last l) := by
  intro l
  induction l with
  | nil => intro last h; simp [resolveAux]
  | cons m rest ih =>
    intro last h
    rw [resolveAux]
    split
    · exact ih fun sp hsp => h sp (List.mem_cons_of_mem m hsp)
    · rename_i hk
      have hm := h m (List.mem_cons_self m rest)
      have hrest := @ih m fun sp hsp => h sp (List.mem_cons_of_mem m hsp)
      refine List.Pairwise.cons ?_ hrest
      intro x hx
      rcases List.mem_cons.1 hx with rfl | hx
      · omega
      · have := (List.pairwise_cons.1 hrest).1 x hx
        omega

theorem resolveOverlaps_pairwise {l : List Span}
    (h : ∀ sp ∈ l, sp.start < sp.stop) :
    List.Pairwise (fun a b : Span => a.stop ≤ b.start) (resolveOverlaps l) := by
  cases l with
  | nil => simp [resolveOverlaps]
  | cons m rest =>
    rw [resolveOverlaps]
    exact resolveAux_pairwise fun sp hsp => h sp (List.mem_cons_of_mem m hsp)

end Vecture

namespace Vecture

/-! ## The claims -/

/-- C1.  Round-trip: for every text, every style string, every custom word
list, every heuristic flag (and every noise draw), restoring the redacted
text with the key produced by `redact` returns exactly the original text. -/
theorem redact_restore_round_trip (text : List Char) (style : String)
    (custom_words : List (List Char)) (redact_caps : Bool)
    (pick : Nat → Nat → Fin noiseAlphabet.length) :
    (restore (redact text style custom_words redact_caps pick).1
        (redact text style custom_words redact_caps pick).2).1 =
      .ok text := by
  rw [redact_def]
  dsimp only
  rw [restore_hash_ok]
  dsimp only
  rw [sortDescPos_of_strict_inc
    (applySpans_recs_sorted (find_matches_spanChain text custom_words redact_caps))]
  have h := @applySpans_restore text style pick
    (find_matches text custom_words redact_caps) 0 [] 0
    (find_matches_spanChain text custom_words redact_caps)
  rw [h]
  simp

/-- C4.  Conflict resolution: on any candidate list of well-formed spans the
resolver's output is strictly ascending by start and pairwise non-overlapping;
overlapping candidates `[0,5)` then `[3,10)` resolve to the first alone; the
empty candidate list resolves to the empty list. -/
theorem conflict_resolver_spec :
    (∀ l : List Span, (∀ sp ∈ l, sp.start < sp.stop) →
        List.Pairwise (fun a b : Span => a.stop ≤ b.start) (resolveCandidates l) ∧
        List.Pairwise (fun a b : Span => a.start < b.start) (resolveCandidates l)) ∧
    (∀ ta tb : List Char,
        resolveCandidates [⟨0, 5, ta⟩, ⟨3, 10, tb⟩] = [⟨0, 5, ta⟩]) ∧
    resolveCandidates [] = [] := by
  refine ⟨?_, fun ta tb => rfl, rfl⟩
  intro l h
  have h' : ∀ sp ∈ sortByStart l, sp.start < sp.stop :=
    fun sp hsp => h sp (sortByStart_mem.1 hsp)
  have hno : List.Pairwise (fun a b : Span => a.stop ≤ b.start)
      (resolveCandidates l) := resolveOverlaps_pairwise h'
  refine ⟨hno, hno.imp_of_mem ?_⟩
  intro a b ha hb hab
  have hwa := h' a (resolveOverlaps_subset ha)
  omega

/-- C2.  Integrity rejection: on any hash mismatch `restore` returns the
integrity error with the key untouched (no record applied, no partial
output); in particular a single-character mutation of a `redact` output whose
digest differs from the original's is rejected the same way. -/
theorem integrity_rejection :
    (∀ (r : List Char) (k : Key), sha256hex r ≠ k.hash →
        restore r k = (.error .integrity, k)) ∧
    (∀ (text : List Char) (style : String) (custom_words : List (List Char))
        (redact_caps : Bool) (pick : Nat → Nat → Fin noiseAlphabet.length)
        (idx : Nat) (c : Char),
        sha256hex ((redact text style custom_words redact_caps pick).1.set idx c) ≠
          sha256hex (redact text style custom_words redact_caps pick).1 →
        restore ((redact text style custom_words redact_caps pick).1.set idx c)
            (redact text style custom_words redact_caps pick).2 =
          (.error .integrity, (redact text style custom_words redact_caps pick).2)) := by
  constructor
  · exact restore_hash_bad
  · intro text style custom_words redact_caps pick idx c h
    apply restore_hash_bad
    have hk : (redact text style custom_words redact_caps pick).2.hash =
        sha256hex (redact text style custom_words redact_caps pick).1 := by
      rw [redact_def]
    rw [hk]
    exact h

/-- `restore` once the integrity check has passed. -/
theorem restore_of_hash_eq (r : List Char) (k : Key) (h : sha256hex r = k.hash) :
    restore r k = (restoreLoop (sortDescPos k.restorations) r,
      { k with restorations := sortDescPos k.restorations }) := by
  rw [restore, if_neg (not_not_intro h)]

theorem sortDescPos_perm (l : List Rec) : (sortDescPos l).Perm l :=
  List.perm_insertionSort (fun a b : Rec => b.pos ≤ a.pos) l

theorem sortDescPos_sorted (l : List Rec) :
    List.Sorted (fun a b : Rec => b.pos ≤ a.pos) (sortDescPos l) := by
  haveI : IsTotal Rec (fun a b : Rec => b.pos ≤ a.pos) :=
    ⟨fun a b => le_total b.pos a.pos⟩
  haveI : IsTrans Rec (fun a b : Rec => b.pos ≤ a.pos) :=
    ⟨fun a b c hab hbc => le_trans hbc hab⟩
  exact List.sorted_insertionSort (fun a b : Rec => b.pos ≤ a.pos) l

/-- C3 counterexample.  A key whose second record violates
`pos + len ≤ len(redacted_text)` (0 + 12 > 10) is accepted: the code checks
records against the evolving intermediate text, which a preceding record has
already lengthened, and restoration succeeds. -/
theorem corrupt_key_claim_cex :
    (restore "0123456789".data
        (mkKey "0123456789".data
          [⟨5, "XXXXXXXXXX".data, 5⟩, ⟨0, "Y".data, 12⟩])).1 = .ok "YXXX".data ∧
    (0 : Int) + 12 > (("0123456789".data.length : Nat) : Int) := by
  constructor
  · rw [restore_of_hash_eq _ _ rfl]
    decide
  · decide

/-- C3 (amended).  The bounds `0 ≤ pos` and `pos + len ≤ length of the
current text` are checked per record at restoration time; in particular when
every replacement length is non-negative, a record with `pos` beyond the
supplied redacted text forces a `CorruptKeyError` carrying an offset beyond
that length. -/
theorem corrupt_key_bounds :
    ∀ (r : List Char) (k : Key),
      sha256hex r = k.hash →
      (∀ rc ∈ k.restorations, 0 ≤ rc.len) →
      (∃ rc ∈ k.restorations, rc.pos > (r.length : Int)) →
      ∃ p : Int, (restore r k).1 = .error (.corruptKey p) ∧ p > (r.length : Int) := by
  intro r k hh hlen hex
  obtain ⟨rc, hrc, hpos⟩ := hex
  rw [restore_of_hash_eq r k hh]
  dsimp only
  have hperm := sortDescPos_perm k.restorations
  have hsorted := sortDescPos_sorted k.restorations
  have hmem : rc ∈ sortDescPos k.restorations := hperm.mem_iff.2 hrc
  cases hs : sortDescPos k.restorations with
  | nil => rw [hs] at hmem; exact absurd hmem (by simp)
  | cons r0 rest =>
    rw [hs] at hmem hsorted
    have h0 : rc.pos ≤ r0.pos := by
      rcases List.mem_cons.1 hmem with rfl | hmem'
      · exact le_refl _
      · exact (List.pairwise_cons.1 hsorted).1 rc hmem'
    have h0len : 0 ≤ r0.len :=
      hlen r0 (hperm.mem_iff.1 (hs ▸ List.mem_cons_self r0 rest))
    refine ⟨r0.pos, ?_, by omega⟩
    rw [restoreLoop, if_pos (Or.inr (by omega))]

/-- C3 witness: a concrete key with `pos = 5` against a two-character text. -/
theorem corrupt_key_bounds_witness :
    ∃ p : Int, (restore "ab".data (mkKey "ab".data [⟨5, "Z".data, 0⟩])).1 =
        .error (.corruptKey p) ∧ p > (("ab".data.length : Nat) : Int) :=
  corrupt_key_bounds "ab".data (mkKey "ab".data [⟨5, "Z".data, 0⟩]) rfl
    (by decide) ⟨⟨5, "Z".data, 0⟩, List.mem_cons_self _ _, by decide⟩

theorem sortDescPos_eq_of_perm {l1 l2 : List Rec} (hp : l1.Perm l2)
    (hnd : (l1.map Rec.pos).Nodup) : sortDescPos l1 = sortDescPos l2 := by
  have s1 := sortDescPos_sorted l1
  have s2 := sortDescPos_sorted l2
  have p1 := sortDescPos_perm l1
  have p2 := sortDescPos_perm l2
  have hnd1 : ((sortDescPos l1).map Rec.pos).Nodup :=
    ((p1.map Rec.pos).nodup_iff).2 hnd
  have hnd2 : ((sortDescPos l2).map Rec.pos).Nodup :=
    ((p2.map Rec.pos).nodup_iff).2 ((hp.map Rec.pos).nodup_iff.1 hnd)
  have hne1 : (sortDescPos l1).Pairwise (fun a b : Rec => a.pos ≠ b.pos) :=
    (List.pairwise_map).1 hnd1
  have hne2 : (sortDescPos l2).Pairwise (fun a b : Rec => a.pos ≠ b.pos) :=
    (List.pairwise_map).1 hnd2
  have strict1 : (sortDescPos l1).Pairwise (fun a b : Rec => b.pos < a.pos) :=
    (s1.and hne1).imp fun h => lt_of_le_of_ne h.1 (Ne.symm h.2)
  have strict2 : (sortDescPos l2).Pairwise (fun a b : Rec => b.pos < a.pos) :=
    (s2.and hne2).imp fun h => lt_of_le_of_ne h.1 (Ne.symm h.2)
  haveI : IsAntisymm Rec (fun a b : Rec => b.pos < a.pos) :=
    ⟨fun a b h1 h2 => absurd h2 (by omega)⟩
  exact List.eq_of_perm_of_sorted (p1.trans (hp.trans p2.symm)) strict1 strict2

/-- C5 counterexample.  Two records sharing position 0: the stable descending
sort preserves their storage order, so the two storage orders of the same
multiset restore to different outputs. -/
theorem restore_order_cex :
    ([(⟨0, "X".data, 1⟩ : Rec), ⟨0, "Y".data, 1⟩]).Perm
        [⟨0, "Y".data, 1⟩, ⟨0, "X".data, 1⟩] ∧
    (restore "ab".data (mkKey "ab".data [⟨0, "X".data, 1⟩, ⟨0, "Y".data, 1⟩])).1 ≠
      (restore "ab".data (mkKey "ab".data [⟨0, "Y".data, 1⟩, ⟨0, "X".data, 1⟩])).1 := by
  constructor
  · exact List.Perm.swap _ _ _
  · rw [restore_of_hash_eq _ _ rfl, restore_of_hash_eq _ _ rfl]
    decide

/-- C5 (amended).  When the records' positions are pairwise distinct, the
result of `restore` (success or failure) is independent of the storage order
of the key's restoration list. -/
theorem restore_order_independent :
    ∀ (r : List Char) (v hsh : List Char) (recs1 recs2 : List Rec),
      recs1.Perm recs2 → (recs1.map Rec.pos).Nodup →
      (restore r ⟨v, hsh, recs1⟩).1 = (restore r ⟨v, hsh, recs2⟩).1 := by
  intro r v hsh recs1 recs2 hp hnd
  by_cases hh : sha256hex r = hsh
  · rw [restore_of_hash_eq r _ hh, restore_of_hash_eq r _ hh]
    dsimp only
    rw [sortDescPos_eq_of_perm hp hnd]
  · rw [restore_hash_bad r _ hh, restore_hash_bad r _ hh]

/-- C5 witness: distinct positions 0 and 1, both storage orders restored. -/
theorem restore_order_independent_witness :
    (restore "ab".data ⟨"1.0".data, sha256hex "ab".data,
        [⟨0, "X".data, 1⟩, ⟨1, "Y".data, 1⟩]⟩).1 =
      (restore "ab".data ⟨"1.0".data, sha256hex "ab".data,
        [⟨1, "Y".data, 1⟩, ⟨0, "X".data, 1⟩]⟩).1 :=
  restore_order_independent "ab".data "1.0".data (sha256hex "ab".data)
    [⟨0, "X".data, 1⟩, ⟨1, "Y".data, 1⟩] [⟨1, "Y".data, 1⟩, ⟨0, "X".data, 1⟩]
    (List.Perm.swap _ _ _) (by decide)

/-- C6 counterexample.  `restore` sorts the caller's restoration list in
place: after a successful call the key no longer stores its records in the
original (ascending) order. -/
theorem restore_key_purity_cex :
    (restore "ab".data
        (mkKey "ab".data [⟨0, "X".data, 1⟩, ⟨1, "Y".data, 1⟩])).2.restorations ≠
      [(⟨0, "X".data, 1⟩ : Rec), ⟨1, "Y".data, 1⟩] := by
  rw [restore_of_hash_eq _ _ rfl]
  decide

/-- C6 (amended).  `restore` returns a fresh string and leaves the key's
version and anchor alone, but it reorders the caller-supplied restoration
list in place: if the integrity check fails the key is unchanged, otherwise
the key ends up with its restorations stably sorted by descending position (a
permutation of the original records). -/
theorem restore_key_state :
    ∀ (r : List Char) (k : Key),
      (sha256hex r ≠ k.hash → (restore r k).2 = k) ∧
      (sha256hex r = k.hash →
        (restore r k).2 =
            { k with restorations := sortDescPos k.restorations } ∧
          (restore r k).2.restorations.Perm k.restorations) := by
  intro r k
  constructor
  · intro hh
    rw [restore_hash_bad r k hh]
  · intro hh
    rw [restore_of_hash_eq r k hh]
    exact ⟨rfl, sortDescPos_perm k.restorations⟩

theorem substitute_other_eq_classic (style : String)
    (pick : Nat → Nat → Fin noiseAlphabet.length) (i : Nat) (orig : List Char)
    (h1 : style ≠ "BLACKOUT") (h2 : style ≠ "VECTURE_NOISE") :
    substitute style pick i orig = substitute "CLASSIC" pick i orig := by
  unfold substitute
  rw [if_neg h1, if_neg h2, if_neg (by decide), if_neg (by decide)]

theorem applySpans_congr_subst {t : List Char} {style style' : String}
    {pick : Nat → Nat → Fin noiseAlphabet.length}
    (hsub : ∀ i orig, substitute style pick i orig = substitute style' pick i orig) :
    ∀ (spans : List Span) (cur : Nat) (acc : List Char) (i : Nat),
      applySpans t style pick spans cur acc i =
        applySpans t style' pick spans cur acc i := by
  intro spans
  induction spans with
  | nil => intro cur acc i; rfl
  | cons sp rest ih =>
    intro cur acc i
    rw [applySpans_cons, applySpans_cons, hsub, ih]

/-- C10.  Any style other than `"BLACKOUT"` and `"VECTURE_NOISE"` falls into
the `else` branch: `redact` behaves exactly as with `"CLASSIC"`, and no error
is raised. -/
theorem unknown_style_behaves_classic :
    ∀ (text : List Char) (style : String) (custom_words : List (List Char))
      (redact_caps : Bool) (pick : Nat → Nat → Fin noiseAlphabet.length),
      style ≠ "BLACKOUT" → style ≠ "VECTURE_NOISE" →
      redact text style custom_words redact_caps pick =
        redact text "CLASSIC" custom_words redact_caps pick := by
  intro text style custom_words redact_caps pick h1 h2
  rw [redact_def, redact_def,
    applySpans_congr_subst fun i orig => substitute_other_eq_classic style pick i orig h1 h2]

/-- C10 witness: the lowercase style string `"classic"` is not recognized and
redacts exactly as `"CLASSIC"`. -/
theorem unknown_style_behaves_classic_witness :
    redact "Contact a@b.co".data "classic" [] false pick0 =
      redact "Contact a@b.co".data "CLASSIC" [] false pick0 :=
  unknown_style_behaves_classic "Contact a@b.co".data "classic" [] false pick0
    (by decide) (by decide)

/-- C9.  The worked example: CLASSIC redaction of
`"Contact john@example.com on 2023-01-05."` with no custom words and the
heuristic off yields `"Contact [REDACTED] on [REDACTED]."`, a key holding the
email record then the date record, and `restore` on that pair reproduces the
original text exactly. -/
theorem worked_example (pick : Nat → Nat → Fin noiseAlphabet.length) :
    redact "Contact john@example.com on 2023-01-05.".data "CLASSIC" [] false pick =
      ("Contact [REDACTED] on [REDACTED].".data,
        { version := "1.0".data,
          hash := sha256hex "Contact [REDACTED] on [REDACTED].".data,
          restorations := [⟨8, "john@example.com".data, 10⟩,
            ⟨22, "2023-01-05".data, 10⟩] }) ∧
    (restore "Contact [REDACTED] on [REDACTED].".data
        (redact "Contact john@example.com on 2023-01-05.".data "CLASSIC" [] false
          pick).2).1 =
      .ok "Contact john@example.com on 2023-01-05.".data := by
  have h1 : redact "Contact john@example.com on 2023-01-05.".data "CLASSIC" [] false
      pick =
      ("Contact [REDACTED] on [REDACTED].".data,
        { version := "1.0".data,
          hash := sha256hex "Contact [REDACTED] on [REDACTED].".data,
          restorations := [⟨8, "john@example.com".data, 10⟩,
            ⟨22, "2023-01-05".data, 10⟩] }) := rfl
  refine ⟨h1, ?_⟩
  rw [h1]
  rw [restore_of_hash_eq _ _ rfl]
  decide

/-- The middle segment of a three-part concatenation, as a Python slice. -/
theorem pySlice_middle (a b c : List Char) :
    pySlice (a ++ (b ++ c)) a.length (a.length + b.length) = b := by
  unfold pySlice
  rw [← List.append_assoc, show a.length + b.length = (a ++ b).length by simp,
    List.take_left, List.drop_left]

/-- The redaction loop only ever appends to its accumulator. -/
theorem applySpans_fst_acc {t : List Char} {style : String}
    {pick : Nat → Nat → Fin noiseAlphabet.length} :
    ∀ (spans : List Span) (cur : Nat) (acc : List Char) (i : Nat),
      ∃ s, (applySpans t style pick spans cur acc i).1 = acc ++ s := by
  intro spans
  induction spans with
  | nil => intro cur acc i; exact ⟨t.drop cur, rfl⟩
  | cons sp rest ih =>
    intro cur acc i
    rw [applySpans_cons]
    dsimp only
    obtain ⟨s, hs⟩ := ih sp.stop
      ((acc ++ pySlice t cur sp.start) ++ substitute style pick i sp.txt) (i + 1)
    refine ⟨pySlice t cur sp.start ++ (substitute style pick i sp.txt ++ s), ?_⟩
    rw [hs]
    simp [List.append_assoc]

/-- Each emitted record carries the span's original text, the length of the
substitute token, and a position at which the redacted output actually holds
that substitute token. -/
theorem applySpans_recs_spec {t : List Char} {style : String}
    {pick : Nat → Nat → Fin noiseAlphabet.length} :
    ∀ {spans : List Span} {cur : Nat} {acc : List Char} {i : Nat},
      SpanChain t cur spans →
      List.Forall₂ (fun (p : Nat × Span) (r : Rec) =>
          r.txt = p.2.txt ∧
          r.len = ((substitute style pick p.1 p.2.txt).length : Int) ∧
          0 ≤ r.pos ∧
          pySlice (applySpans t style pick spans cur acc i).1 r.pos.toNat
              (r.pos.toNat + (substitute style pick p.1 p.2.txt).length) =
            substitute style pick p.1 p.2.txt)
        (List.enumFrom i spans) (applySpans t style pick spans cur acc i).2 := by
  intro spans
  induction spans with
  | nil => intro cur acc i hch; exact List.Forall₂.nil
  | cons sp rest ih =>
    intro cur acc i hch
    obtain ⟨hcur, hv, hch'⟩ := hch
    rw [applySpans_cons, List.enumFrom]
    dsimp only
    refine List.Forall₂.cons ?_ (ih hch')
    refine ⟨rfl, rfl, Int.natCast_nonneg _, ?_⟩
    obtain ⟨s, hs⟩ := applySpans_fst_acc rest sp.stop
      ((acc ++ pySlice t cur sp.start) ++ substitute style pick i sp.txt) (i + 1)
    rw [hs, Int.toNat_natCast, List.append_assoc, List.append_assoc,
      ← List.append_assoc]
    exact pySlice_middle _ _ _

/-- C8.  Style length invariants: the BLACKOUT substitute is the block
character repeated `len(original)` times, the VECTURE_NOISE substitute is
`len(original)` characters drawn from the fixed alphabet, the CLASSIC
substitute is the literal `[REDACTED]` token; and every restoration record's
`len` is the length of the substitute token actually appended at its `pos` in
the redacted output. -/
theorem style_length_invariants :
    (∀ (pick : Nat → Nat → Fin noiseAlphabet.length) (i : Nat)
        (original : List Char),
        substitute "BLACKOUT" pick i original =
          List.replicate original.length '█') ∧
    (∀ (pick : Nat → Nat → Fin noiseAlphabet.length) (i : Nat)
        (original : List Char),
        (substitute "VECTURE_NOISE" pick i original).length = original.length ∧
        ∀ c ∈ substitute "VECTURE_NOISE" pick i original, c ∈ noiseAlphabet) ∧
    (∀ (pick : Nat → Nat → Fin noiseAlphabet.length) (i : Nat)
        (original : List Char),
        substitute "CLASSIC" pick i original = "[REDACTED]".data) ∧
    (∀ (text : List Char) (style : String) (custom_words : List (List Char))
        (redact_caps : Bool) (pick : Nat → Nat → Fin noiseAlphabet.length),
        List.Forall₂ (fun (p : Nat × Span) (r : Rec) =>
            r.len = ((substitute style pick p.1 p.2.txt).length : Int) ∧
            pySlice (redact text style custom_words redact_caps pick).1 r.pos.toNat
                (r.pos.toNat + (substitute style pick p.1 p.2.txt).length) =
              substitute style pick p.1 p.2.txt)
          (List.enumFrom 0 (find_matches text custom_words redact_caps))
          (redact text style custom_words redact_caps pick).2.restorations) := by
  refine ⟨?_, ?_, ?_, ?_⟩
  · intro pick i original
    rw [substitute, if_pos rfl]
  · intro pick i original
    constructor
    · simp [substitute]
    · intro c hc
      rw [substitute, if_neg (by decide), if_pos rfl] at hc
      obtain ⟨j, -, hj⟩ := List.mem_map.1 hc
      exact hj ▸ List.get_mem noiseAlphabet (pick i j) (pick i j).isLt
  · intro pick i original
    rw [substitute, if_neg (by decide), if_neg (by decide)]
  · intro text style custom_words redact_caps pick
    rw [redact_def]
    dsimp only
    exact (applySpans_recs_spec
        (find_matches_spanChain text custom_words redact_caps)).imp
      fun p r h => ⟨h.2.1, h.2.2.2⟩

/-! ## Lemmas: the key codec -/

theorem replaceAll_of_no_colon :
    ∀ (fuel : Nat) (s : List Char), (∀ c ∈ s, c ≠ ':') →
      replaceAll keyMarker [] fuel s = s := by
  intro fuel
  induction fuel with
  | zero => intro s h; rfl
  | succ n ih =>
    intro s h
    cases s with
    | nil => rfl
    | cons c s' =>
      rw [replaceAll]
      rw [if_neg ?hng]
      · rw [ih s' fun x hx => h x (List.mem_cons_of_mem c hx)]
      case hng =>
        intro hpre
        obtain ⟨tl, htl⟩ := List.isPrefixOf_iff_prefix.1 hpre
        have hc : (':' : Char) ∈ c :: s' := by
          rw [← htl]
          exact List.mem_append_left tl (by decide)
        exact h ':' hc rfl

theorem pyReplace_marker_strip (enc : List Char) (h : ∀ c ∈ enc, c ≠ ':') :
    pyReplace (keyMarker ++ enc) keyMarker [] = enc := by
  show replaceAll keyMarker [] (keyMarker ++ enc).length (keyMarker ++ enc) = enc
  rw [show (keyMarker ++ enc).length = (11 + enc.length) + 1 by
    simp [keyMarker, List.length_append]
    omega]
  show replaceAll keyMarker [] (11 + enc.length + 1)
    ('V' :: ("ECTURE_KEY:".data ++ enc)) = enc
  rw [replaceAll]
  rw [if_pos ?hp]
  · rw [List.nil_append]
    rw [show ('V' :: ("ECTURE_KEY:".data ++ enc)).drop keyMarker.length = enc from
      List.drop_left keyMarker enc]
    exact replaceAll_of_no_colon _ enc h
  case hp =>
    show keyMarker.isPrefixOf (keyMarker ++ enc) = true
    exact List.isPrefixOf_iff_prefix.2 (List.prefix_append keyMarker enc)

theorem keyMarker_prefix_append (enc : List Char) :
    keyMarker.isPrefixOf (keyMarker ++ enc) = true :=
  List.isPrefixOf_iff_prefix.2 (List.prefix_append keyMarker enc)

/-- C7.  Codec round-trip and failure modes, over the stdlib collaborators
(`json`, `zlib`, `base64`) with their lossless contracts at the points the
pipeline uses them: packing then unpacking restores the key; the bare
structured serialization also unpacks to the key; with the marker present any
decode/decompress/parse failure is a `KeyFormatError`, and with it absent any
parse failure is a `KeyFormatError`. -/
theorem codec_round_trip :
    ∀ (dumps : Key → List Char) (compress : List Nat → List Nat)
      (b64encode : List Nat → List Char) (b64decode : List Char → Option (List Nat))
      (decompress : List Nat → Option (List Nat))
      (loadsBytes : List Nat → Option Key) (loadsStr : List Char → Option Key)
      (K : Key),
      (∀ c ∈ b64encode (compress (utf8Encode (dumps K))), c ≠ ':') →
      b64decode (b64encode (compress (utf8Encode (dumps K)))) =
        some (compress (utf8Encode (dumps K))) →
      decompress (compress (utf8Encode (dumps K))) = some (utf8Encode (dumps K)) →
      loadsBytes (utf8Encode (dumps K)) = some K →
      loadsStr (dumps K) = some K →
      keyMarker.isPrefixOf (dumps K) = false →
      (deobfuscate_key b64decode decompress loadsBytes loadsStr
          (obfuscate_key dumps compress b64encode K) = .ok K ∧
        deobfuscate_key b64decode decompress loadsBytes loadsStr (dumps K) = .ok K ∧
        (∀ s : List Char, keyMarker.isPrefixOf s = true →
          b64decode (pyReplace s keyMarker []) = none →
          deobfuscate_key b64decode decompress loadsBytes loadsStr s = .error ()) ∧
        (∀ (s : List Char) (bs : List Nat), keyMarker.isPrefixOf s = true →
          b64decode (pyReplace s keyMarker []) = some bs → decompress bs = none →
          deobfuscate_key b64decode decompress loadsBytes loadsStr s = .error ()) ∧
        (∀ (s : List Char) (bs ds : List Nat), keyMarker.isPrefixOf s = true →
          b64decode (pyReplace s keyMarker []) = some bs → decompress bs = some ds →
          loadsBytes ds = none →
          deobfuscate_key b64decode decompress loadsBytes loadsStr s = .error ()) ∧
        (∀ s : List Char, keyMarker.isPrefixOf s = false → loadsStr s = none →
          deobfuscate_key b64decode decompress loadsBytes loadsStr s = .error ())) := by
  intro dumps compress b64encode b64decode decompress loadsBytes loadsStr K
    hnc hdec hzip hloadb hloads hnm
  refine ⟨?_, ?_, ?_, ?_, ?_, ?_⟩
  · rw [obfuscate_key, deobfuscate_key, if_pos (keyMarker_prefix_append _)]
    dsimp only
    rw [pyReplace_marker_strip _ hnc, hdec]
    dsimp only
    rw [hzip]
    dsimp only
    rw [hloadb]
  · rw [deobfuscate_key, if_neg (by rw [hnm]; exact Bool.false_ne_true), hloads]
  · intro s hpre hb
    rw [deobfuscate_key, if_pos hpre]
    dsimp only
    rw [hb]
  · intro s bs hpre hb hz
    rw [deobfuscate_key, if_pos hpre]
    dsimp only
    rw [hb]
    dsimp only
    rw [hz]
  · intro s bs ds hpre hb hz hl
    rw [deobfuscate_key, if_pos hpre]
    dsimp only
    rw [hb]
    dsimp only
    rw [hz]
    dsimp only
    rw [hl]
  · intro s hpre hl
    rw [deobfuscate_key, if_neg (by rw [hpre]; exact Bool.false_ne_true), hl]

/-- C7 witness: a concrete key and concrete lossless stand-ins for the stdlib
collaborators, both transport forms round-tripping. -/
theorem codec_round_trip_witness :
    deobfuscate_key (fun cs => some (cs.map fun c => c.toNat - 65)) some
        (fun bs => if bs = [106] then some ⟨"1.0".data, "h".data, []⟩ else none)
        (fun s => if s = ['j'] then some ⟨"1.0".data, "h".data, []⟩ else none)
        (obfuscate_key (fun _ => ['j']) id
          (fun bs => bs.map fun b => Char.ofNat (b + 65))
          ⟨"1.0".data, "h".data, []⟩) =
      .ok (⟨"1.0".data, "h".data, []⟩ : Key) ∧
    deobfuscate_key (fun cs => some (cs.map fun c => c.toNat - 65)) some
        (fun bs => if bs = [106] then some ⟨"1.0".data, "h".data, []⟩ else none)
        (fun s => if s = ['j'] then some ⟨"1.0".data, "h".data, []⟩ else none)
        ['j'] =
      .ok (⟨"1.0".data, "h".data, []⟩ : Key) := by
  have h := codec_round_trip (fun _ => ['j']) id
    (fun bs => bs.map fun b => Char.ofNat (b + 65))
    (fun cs => some (cs.map fun c => c.toNat - 65)) some
    (fun bs => if bs = [106] then some ⟨"1.0".data, "h".data, []⟩ else none)
    (fun s => if s = ['j'] then some ⟨"1.0".data, "h".data, []⟩ else none)
    ⟨"1.0".data, "h".data, []⟩
    (by decide) (by decide) (by decide) (by decide) (by decide) (by decide)
  exact ⟨h.1, h.2.1⟩

end Vecture
